import Mathlib

/-!
# Verification of the BWA-MEM core alignment pipeline (`bwamem.c`)

This file gives a shallow embedding, in Lean 4, of the algorithmic core of
`src/bwamem.c`: seed chaining (`test_and_merge`, `mem_insert_seed`,
`mem_chain`), chain filtering (`mem_chain_flt` and its interval-union weight),
region sort/dedup (`mem_sort_and_dedup`), primary marking
(`mem_mark_primary_se`), the CIGAR band-width computation and early rejection
in `bwa_gen_cigar`, the approximate MAPQ (`mem_approx_mapq_se`), and the index
sets walked by the two worker passes (`worker1`/`worker2`).

Modelling conventions:
* C `int`/`int64_t` values are modelled as unbounded `Int` (no arithmetic in
  the verified paths comes near overflow for the ranges the program uses).
* The C `double` option fields `mask_level` and `chain_drop_ratio` are
  modelled as exact rationals (`ℚ`).  Comparisons of the form
  `int_expr >= int_expr * ratio` are written cross-multiplied by the positive
  denominator (`x * r.den ≥ y * r.num`), which is equivalent to the rational
  comparison (`ratioLeMul_iff`, `mulRatioLt_iff` below) and keeps every
  definition kernel-executable.  For the default values `0.50` the C `double`
  arithmetic on the small integers involved is exact, so this model is exact.
* External collaborators declared out of scope by the program (the FM-index
  primitives `bwt_smem1`/`bwt_sa`, the packed-reference fetch `bns_get_seq`
  and the alignment kernel `ksw_global`) enter as explicit parameters: a seed
  stream for the chainer, and oracle functions for `bwa_gen_cigar`.
* In-place array mutation is modelled by `List.set`; the `kbtree` ordered by
  chain position is modelled by a list kept sorted by `pos` with a
  predecessor query.
-/

/-! ## Scoring/option parameters (`mem_opt_t`, fields used by the verified core) -/

/-- The subset of `mem_opt_t` fields read by the functions embedded here.
`mask_level` and `chain_drop_ratio` are C `double`s, modelled as exact
rationals. -/
structure MemOpt where
  a : Int
  b : Int
  q : Int
  r : Int
  w : Int
  min_seed_len : Int
  max_chain_gap : Int
  mask_level : ℚ
  chain_drop_ratio : ℚ

/-- The exact rational `1/2`, built without normalisation so that its
numerator and denominator reduce in the kernel. -/
def halfRat : ℚ := Rat.mk' 1 2 (by decide) (Nat.coprime_one_left 2)

/-- Defaults set by `mem_opt_init` for the fields modelled here
(`a=1, b=4, q=6, r=1, w=100, min_seed_len=19, max_chain_gap=10000,
mask_level=0.50, chain_drop_ratio=0.50`). -/
def mem_opt_init : MemOpt :=
  { a := 1, b := 4, q := 6, r := 1, w := 100,
    min_seed_len := 19, max_chain_gap := 10000,
    mask_level := halfRat, chain_drop_ratio := halfRat }

/-! ## Seeds and chains (`mem_seed_t`, `mem_chain_t`) -/

/-- A seed: `qbeg` (0-based query start, C `int`), `rbeg` (position in the
forward-reverse packed reference, C `int64_t`), `len` (exact-match length). -/
structure MemSeed where
  qbeg : Int
  rbeg : Int
  len : Int
deriving DecidableEq

/-- Default seed used only as the `List.getD`/`headD` fallback; chains built
by the chainer always hold at least one seed. -/
def dSeed : MemSeed := ⟨0, 0, 0⟩

/-- A chain: the B-tree key `pos` (the first seed's `rbeg`) and the seed
buffer, in insertion order.  The C `n`/`m` counters are subsumed by the
list length. -/
structure MemChain where
  pos : Int
  seeds : List MemSeed
deriving DecidableEq

/-- Default chain used only as a `List.getD` fallback. -/
def dChain : MemChain := ⟨0, []⟩

/-- Embedding of `test_and_merge` (bwamem.c:143-162).  Returns `some c'` when
the C function returns 1 (seed contained, chain unchanged, or seed appended),
and `none` when it returns 0 (request to open a new chain). -/
def test_and_merge (opt : MemOpt) (c : MemChain) (p : MemSeed) : Option MemChain :=
  let last := c.seeds.getLastD dSeed
  let first := c.seeds.headD dSeed
  let qend := last.qbeg + last.len
  let rend := last.rbeg + last.len
  if p.qbeg ≥ first.qbeg ∧ p.qbeg + p.len ≤ qend ∧ p.rbeg ≥ first.rbeg ∧ p.rbeg + p.len ≤ rend then
    some c  -- contained seed; do nothing
  else
    let x := p.qbeg - last.qbeg
    let y := p.rbeg - last.rbeg
    if y ≥ 0 ∧ x - y ≤ opt.w ∧ y - x ≤ opt.w ∧
        x - last.len < opt.max_chain_gap ∧ y - last.len < opt.max_chain_gap then
      some { c with seeds := c.seeds ++ [p] }  -- grow the chain
    else
      none

/-- A fresh single-seed chain, as built at bwamem.c:185-189 (`tmp.n = 1`,
`tmp.seeds[0] = s`, `tmp.pos = s.rbeg`). -/
def newChain (s : MemSeed) : MemChain := ⟨s.rbeg, [s]⟩

/-- Ordering of chains by B-tree key (`chain_cmp` compares `pos`). -/
def chainLe (c1 c2 : MemChain) : Prop := c1.pos ≤ c2.pos

instance : DecidableRel chainLe := fun c1 c2 => Int.decLe c1.pos c2.pos

/-- Index of the predecessor chain in a pos-sorted chain list: the last index
whose `pos` is at most `r`.  This models `kb_intervalp`'s `lower` result for
the query key `tmp.pos = s.rbeg`. -/
def predIdx (state : List MemChain) (r : Int) : Option Nat :=
  ((List.range state.length).filter (fun i => decide ((state.getD i dChain).pos ≤ r))).getLast?

/-- One iteration of the seed-insertion body of `mem_insert_seed`
(bwamem.c:176-190): look up the predecessor chain, try `test_and_merge`, and
otherwise insert the seed as a new chain into the pos-ordered structure. -/
def insertOneSeed (opt : MemOpt) (state : List MemChain) (s : MemSeed) : List MemChain :=
  match predIdx state s.rbeg with
  | some i =>
    match test_and_merge opt (state.getD i dChain) s with
    | some c' => state.set i c'
    | none => List.orderedInsert chainLe (newChain s) state
  | none => List.orderedInsert chainLe (newChain s) state

/-- Embedding of `mem_insert_seed`'s effect on the chain tree, abstracted over
the stream of seeds.  The stream stands for the expansion (via the external
`bwt_sa`) of the SMEM intervals produced by the external `bwt_smem1`, after
the in-loop filter that drops intervals shorter than `min_seed_len` or with
more than `max_occ` occurrences (bwamem.c:173). -/
def insertSeeds (opt : MemOpt) (seeds : List MemSeed) : List MemChain :=
  seeds.foldl (insertOneSeed opt) []

/-- Embedding of `mem_chain` (bwamem.c:214-236): queries shorter than
`min_seed_len` yield no chains without touching the seed stream (i.e. without
consulting the FM-index); otherwise all seeds are inserted and the tree is
traversed in key order (the state list is kept pos-sorted). -/
def mem_chain (opt : MemOpt) (len : Int) (seeds : List MemSeed) : List MemChain :=
  if len < opt.min_seed_len then [] else insertSeeds opt seeds

/-- The colinearity invariant claimed for chains: consecutive seeds are
monotone non-decreasing in `qbeg` and `rbeg` and their diagonal drift is at
most the band width `w`. -/
def chainColinear (w : Int) (c : MemChain) : Prop :=
  List.Chain'
    (fun s t => s.qbeg ≤ t.qbeg ∧ s.rbeg ≤ t.rbeg ∧
      |(t.qbeg - s.qbeg) - (t.rbeg - s.rbeg)| ≤ w) c.seeds

/-- Query-start ordering of seeds.  The seed stream delivered by the SMEM
iterator is non-decreasing in `qbeg` (the source relies on this: the comment
at bwamem.c:151 asserts `x = p->qbeg - last->qbeg` is "always non-negtive"). -/
def seedQLe (s t : MemSeed) : Prop := s.qbeg ≤ t.qbeg

instance : DecidableRel seedQLe := fun s t => Int.decLe s.qbeg t.qbeg

/-- Invariant carried through the seed-insertion loop: every chain in the
state is colinear, and every seed already in a chain has `qbeg` at most that
of every seed still to come in the stream `rest`. -/
def chainInvState (w : Int) (rest : List MemSeed) (state : List MemChain) : Prop :=
  ∀ c ∈ state, chainColinear w c ∧ ∀ t ∈ c.seeds, ∀ f ∈ rest, t.qbeg ≤ f.qbeg

/-! ## Chain weight and chain filtering (`mem_chain_flt`, bwamem.c:242-325) -/

/-- One step of the first coverage loop of `mem_chain_flt` (bwamem.c:260-265):
a sweep over the seeds projected on the query axis, accumulating covered
length in `w` and the running maximum right endpoint in `end`. -/
def covStepQ (st : Int × Int) (s : MemSeed) : Int × Int :=
  let w :=
    if s.qbeg ≥ st.2 then st.1 + s.len
    else if s.qbeg + s.len > st.2 then st.1 + (s.qbeg + s.len - st.2)
    else st.1
  (w, max st.2 (s.qbeg + s.len))

/-- One step of the second coverage loop of `mem_chain_flt` (bwamem.c:267-272).
The branch conditions read `rbeg`, but — exactly as in the source — the
running endpoint `end` is updated with `s->qbeg + s->len`, and the
accumulator is NOT reset between the two loops. -/
def covStepR (st : Int × Int) (s : MemSeed) : Int × Int :=
  let w :=
    if s.rbeg ≥ st.2 then st.1 + s.len
    else if s.rbeg + s.len > st.2 then st.1 + (s.rbeg + s.len - st.2)
    else st.1
  (w, max st.2 (s.qbeg + s.len))

/-- The weight `mem_chain_flt` assigns to a chain (bwamem.c:258-273):
`tmp` is the value after the query-axis loop, the second loop keeps adding to
the same accumulator, and the final value is `min` of the two. -/
def chain_weight (c : MemChain) : Int :=
  let tmp := (c.seeds.foldl covStepQ (0, 0)).1
  let w := (c.seeds.foldl covStepR (tmp, 0)).1
  min w tmp

/-- The set of query positions covered by the union of the seeds of a list,
projected through `f` (the spec's interval-union coverage). -/
def covSet (f : MemSeed → Int) (l : List MemSeed) : Finset ℤ :=
  l.foldr (fun s acc => Finset.Ico (f s) (f s + s.len) ∪ acc) ∅

/-- The weight the specification prescribes for a chain:
`min(w_q, w_r)` where `w_q`/`w_r` are the interval-union coverages of the
seeds projected on the query/reference axis. -/
def specChainWeight (c : MemChain) : Int :=
  min ((covSet MemSeed.qbeg c.seeds).card : Int) ((covSet MemSeed.rbeg c.seeds).card : Int)

/-- The auxiliary record `flt_aux_t` (bwamem.c:242-245): query interval
`[beg, endq)` of the chain, its weight, the chain's index `p` in the sorted
chain array, and the lazily recorded first significant-overlap partner `p2`.
The source's `end` field is named `endq` (`end` is a Lean keyword); the
source's pointers `p`, `p2` become indices into the sorted chain list. -/
structure FltAux where
  beg : Int
  endq : Int
  w : Int
  p : Nat
  p2 : Option Nat
deriving DecidableEq

/-- Build the `flt_aux_t` entry of the chain at (post-sort) index `i`
(bwamem.c:274-276). -/
def mkAux (i : Nat) (c : MemChain) : FltAux :=
  { beg := (c.seeds.headD dSeed).qbeg,
    endq := (c.seeds.getLastD dSeed).qbeg + (c.seeds.getLastD dSeed).len,
    w := chain_weight c, p := i, p2 := none }

/-- Sorting relation of `ks_introsort(mem_flt, ...)`: `flt_lt` is `a.w > b.w`,
so the sorted order is weight non-increasing.  `ks_introsort` is unstable and
leaves the relative order of equal weights unspecified; the model fixes the
stable insertion-sort order. -/
def fltWGe (c1 c2 : MemChain) : Prop := chain_weight c2 ≤ chain_weight c1

instance : DecidableRel fltWGe := fun c1 c2 => Int.decLe (chain_weight c2) (chain_weight c1)

/-- Chains reordered so that the best chain appears first (bwamem.c:278-288). -/
def sortChainsByW (cs : List MemChain) : List MemChain := List.insertionSort fltWGe cs

/-- The significant-overlap test of `mem_chain_flt`'s inner loop
(bwamem.c:291-295): the query intervals overlap and the overlap length is at
least `min_l * mask_level`.  The C `double` comparison is written
cross-multiplied by the positive denominator of `mask_level`. -/
def sigOverlap (ml : ℚ) (aj ai : FltAux) : Bool :=
  let bmax := max aj.beg ai.beg
  let emin := min aj.endq ai.endq
  let minl := min (ai.endq - ai.beg) (aj.endq - aj.beg)
  decide (emin > bmax) && decide ((emin - bmax) * (ml.den : Int) ≥ minl * ml.num)

/-- The drop test of `mem_chain_flt` (bwamem.c:297): candidate weight below
`chain_drop_ratio` times the accepted weight (cross-multiplied rational
comparison) and at least `2*min_seed_len` lighter. -/
def dropTest (opt : MemOpt) (aj ai : FltAux) : Bool :=
  decide (ai.w * (opt.chain_drop_ratio.den : Int) < aj.w * opt.chain_drop_ratio.num) &&
  decide (aj.w - ai.w ≥ 2 * opt.min_seed_len)

/-- The inner loop of `mem_chain_flt` over the accepted list for one candidate
`cand` (bwamem.c:290-301): on each significantly overlapping accepted entry,
record `cand` as its `p2` if unset; if additionally the drop test fires,
break with the candidate rejected.  Returns the (possibly `p2`-updated)
accepted list and whether the candidate was rejected. -/
def scanAcc (opt : MemOpt) (cand : FltAux) : List FltAux → List FltAux × Bool
  | [] => ([], false)
  | a :: rest =>
    if sigOverlap opt.mask_level a cand then
      let a' := if a.p2 = none then { a with p2 := some cand.p } else a
      if dropTest opt a cand then (a' :: rest, true)
      else
        let res := scanAcc opt cand rest
        (a' :: res.1, res.2)
    else
      let res := scanAcc opt cand rest
      (a :: res.1, res.2)

/-- One candidate of the acceptance loop (bwamem.c:290-302): scan the
accepted list; append the candidate when not rejected (`a[n++] = a[i]`). -/
def acceptStep (opt : MemOpt) (acc : List FltAux) (cand : FltAux) : List FltAux :=
  let res := scanAcc opt cand acc
  if res.2 then res.1 else res.1 ++ [cand]

/-- The acceptance loop of `mem_chain_flt` (bwamem.c:289-302): the heaviest
chain is accepted outright (`n = 1`), then each candidate in weight order is
scanned against the accepted list. -/
def acceptLoop (opt : MemOpt) : List FltAux → List FltAux
  | [] => []
  | a0 :: rest => rest.foldl (acceptStep opt) [a0]

/-- The indices of the chains accepted by the filter loop, in accepted order. -/
def acceptedIdxs (opt : MemOpt) (cs : List MemChain) : List Nat :=
  (acceptLoop opt ((sortChainsByW cs).enum.map (fun ic => mkAux ic.1 ic.2))).map (fun a => a.p)

/-- The keep-marking loop of `mem_chain_flt` (bwamem.c:304-309): for each
entry of the accepted list, mark its chain and (if set) its `p2` chain.  The
source marks by flipping the sign of a positive `n`; this is modelled by a
boolean flag per index, with the `c->n > 0` guard becoming a non-empty-seeds
guard (flag setting is idempotent exactly as repeated sign-flip requests
are). -/
def markStep (sorted : List MemChain) (ks : List Bool) (a : FltAux) : List Bool :=
  let ks1 := if (sorted.getD a.p dChain).seeds ≠ [] then ks.set a.p true else ks
  match a.p2 with
  | some j => if (sorted.getD j dChain).seeds ≠ [] then ks1.set j true else ks1
  | none => ks1

/-- The keep flags after the whole marking loop. -/
def markFlags (sorted : List MemChain) (acc : List FltAux) : List Bool :=
  acc.foldl (markStep sorted) (List.replicate sorted.length false)

/-- Embedding of `mem_chain_flt` (bwamem.c:250-325).  With at most one chain
the input is returned untouched (bwamem.c:254).  Otherwise: compute aux
entries, sort by weight, run the acceptance loop, mark kept chains, and
squeeze out unmarked chains in array order (bwamem.c:311-324); the returned
list is the surviving chains (the C function frees the seed buffers of the
others and returns the new count). -/
def mem_chain_flt (opt : MemOpt) (cs : List MemChain) : List MemChain :=
  if cs.length ≤ 1 then cs
  else
    let sorted := sortChainsByW cs
    let acc := acceptLoop opt (sorted.enum.map (fun ic => mkAux ic.1 ic.2))
    let flags := markFlags sorted acc
    ((sorted.enum.filter (fun ic => flags.getD ic.1 false)).map (fun ic => ic.2))

/-- Membership of index `i` in the kept set determined by the accepted list:
`i` is the index of an accepted chain or recorded as some accepted chain's
first significant-overlap partner (`p2`). -/
def keptB (acc : List FltAux) (i : Nat) : Bool :=
  acc.any (fun a => a.p == i || a.p2 == some i)

/-- Declarative description of `mem_chain_flt`'s survivors: the weight-sorted
chains restricted to kept indices, in sorted order. -/
def chainFltKept (opt : MemOpt) (cs : List MemChain) : List MemChain :=
  let sorted := sortChainsByW cs
  let acc := acceptLoop opt (sorted.enum.map (fun ic => mkAux ic.1 ic.2))
  ((sorted.enum.filter (fun ic => keptB acc ic.1)).map (fun ic => ic.2))

/-! ## Alignment regions (`mem_alnreg_t`) and sort/dedup (bwamem.c:331-349) -/

/-- An alignment region.  Fields follow `mem_alnreg_t` as used in the source:
half-open query interval `[qb, qe)`, reference interval `[rb, re)`, the
extension `score`, suboptimal tracking `sub`, `csub`, `sub_n`, the seed
coverage `seedcov`, and `secondary` (`-1` for primary, else the index of the
dominating primary). -/
structure MemAlnreg where
  rb : Int
  re : Int
  qb : Int
  qe : Int
  score : Int
  sub : Int
  csub : Int
  sub_n : Int
  seedcov : Int
  secondary : Int
deriving DecidableEq

/-- Default region used only as a `List.getD` fallback. -/
def dReg : MemAlnreg := ⟨0, 0, 0, 0, 0, 0, 0, 0, 0, 0⟩

/-- The non-strict version of the sort key of `alnreg_slt` (bwamem.c:331):
score descending, then `rb` ascending, then `qb` ascending.  `ks_introsort`
with the strict `alnreg_slt` produces a list sorted by this relation;
the unstable tie order of `ks_introsort` is modelled as the stable
insertion-sort order. -/
def keyLe (x y : MemAlnreg) : Prop :=
  y.score < x.score ∨
    (x.score = y.score ∧ (x.rb < y.rb ∨ (x.rb = y.rb ∧ x.qb ≤ y.qb)))

/-- The strict sort key (`alnreg_slt` itself). -/
def keyLt (x y : MemAlnreg) : Prop :=
  y.score < x.score ∨
    (x.score = y.score ∧ (x.rb < y.rb ∨ (x.rb = y.rb ∧ x.qb < y.qb)))

instance : DecidableRel keyLe := fun x y => by unfold keyLe; infer_instance

instance : DecidableRel keyLt := fun x y => by unfold keyLt; infer_instance

instance : IsTotal MemAlnreg keyLe :=
  ⟨by
    intro x y
    unfold keyLe
    rcases lt_trichotomy x.score y.score with h | h | h
    · omega
    · omega
    · omega⟩

instance : IsTrans MemAlnreg keyLe :=
  ⟨by
    intro x y z hxy hyz
    unfold keyLe at hxy hyz ⊢
    omega⟩

/-- The duplicate-marking pass of `mem_sort_and_dedup` (bwamem.c:339-342):
walking the sorted tail, any entry sharing `(score, rb, qb)` with its
predecessor gets `qe := qb`.  The predecessor compared against is the
(possibly already marked) previous entry, whose key triple marking does not
change. -/
def markDups (prev : MemAlnreg) : List MemAlnreg → List MemAlnreg
  | [] => []
  | x :: xs =>
    let x' :=
      if x.score = prev.score ∧ x.rb = prev.rb ∧ x.qb = prev.qb then
        { x with qe := x.qb }
      else x
    x' :: markDups x' xs

/-- Embedding of `mem_sort_and_dedup` (bwamem.c:334-349): with at most one
region the input is returned; otherwise sort by `alnreg_slt`, mark identical
`(score, rb, qb)` runs, and compact keeping the first entry and every later
entry with `qe > qb`. -/
def mem_sort_and_dedup (l : List MemAlnreg) : List MemAlnreg :=
  if l.length ≤ 1 then l
  else
    match List.insertionSort keyLe l with
    | [] => []
    | x :: xs => x :: (markDups x xs).filter (fun r => decide (r.qb < r.qe))

/-! ## Primary marking (`mem_mark_primary_se`, bwamem.c:351-378) -/

/-- The significant-overlap test of `mem_mark_primary_se`'s inner loop
(bwamem.c:363-367), on the query intervals of regions `aj` (a primary) and
`ai` (the current region); the `double` comparison against
`min_l * mask_level` is written cross-multiplied. -/
def regSigOverlap (ml : ℚ) (aj ai : MemAlnreg) : Bool :=
  let bmax := max aj.qb ai.qb
  let emin := min aj.qe ai.qe
  let minl := min (ai.qe - ai.qb) (aj.qe - aj.qb)
  decide (emin > bmax) && decide ((emin - bmax) * (ml.den : Int) ≥ minl * ml.num)

/-- The near-tie margin `tmp = max(a+b, q+r)` (bwamem.c:358). -/
def tiePen (opt : MemOpt) : Int := max (opt.a + opt.b) (opt.q + opt.r)

/-- The update applied to the dominating primary `aj` when region `ai` is
found secondary to it (bwamem.c:368-369): record `ai`'s score as `sub` if
`sub` is still 0, and count a near-tie in `sub_n` when the score gap is at
most `tiePen`. -/
def mpUpdateAj (opt : MemOpt) (aj ai : MemAlnreg) : MemAlnreg :=
  let aj := if aj.sub = 0 then { aj with sub := ai.score } else aj
  if aj.score - ai.score ≤ tiePen opt then { aj with sub_n := aj.sub_n + 1 } else aj

/-- The body of `mem_mark_primary_se`'s outer loop for region index `i`
(bwamem.c:360-376), acting on the region list and the primary index stack
`z`: find the first primary in `z` with significant overlap; if found, update
its `sub`/`sub_n` and point `secondary` of region `i` at it, else push `i`
onto `z`. -/
def markPrimaryStep (opt : MemOpt) (st : List MemAlnreg × List Nat) (i : Nat) :
    List MemAlnreg × List Nat :=
  let regs := st.1
  let z := st.2
  let ai := regs.getD i dReg
  match z.find? (fun j => regSigOverlap opt.mask_level (regs.getD j dReg) ai) with
  | some j =>
    ((regs.set j (mpUpdateAj opt (regs.getD j dReg) ai)).set i
      { ai with secondary := (j : Int) }, z)
  | none => (regs, z ++ [i])

/-- Embedding of `mem_mark_primary_se` (bwamem.c:351-378): reset `sub := 0`
and `secondary := -1` on every region, seed the primary stack with index 0,
then process indices `1..n-1` in order. -/
def mem_mark_primary_se (opt : MemOpt) (regs0 : List MemAlnreg) : List MemAlnreg :=
  if regs0.length = 0 then regs0
  else
    let init := regs0.map (fun r => { r with sub := 0, secondary := -1 })
    ((List.range' 1 (regs0.length - 1)).foldl (markPrimaryStep opt) (init, [0])).1

/-! ## CIGAR generation (`bwa_gen_cigar`, bwamem.c:464-496) -/

/-- The band width computed inside `bwa_gen_cigar` (bwamem.c:483-486).
`(int)((double)(l_query * mat[0] - q) / r + 1.)` is exactly
`Int.tdiv (l_query*mat0 - q + r) r` for the integer ranges the program uses
(the cast truncates toward zero, and adding `1.` before the cast equals
dividing `t + r`).  Note the source then takes `w = w < 1 ? w : 1` — the
MINIMUM with 1 — before clamping by `w_` and widening by `|rlen - l_query|`. -/
def genCigarBand (mat0 q r w_ l_query rlen : Int) : Int :=
  let w := Int.tdiv (l_query * mat0 - q + r) r
  let w := if w < 1 then w else 1
  let w := if w < w_ then w else w_
  w + |rlen - l_query|

/-- The band width the specification prescribes for `bwa_gen_cigar`:
`min(w_opt, max(1, floor((l_query*match - q)/r) + 1)) + |rlen - l_query|`. -/
def specGenCigarBand (mat0 q r w_ l_query rlen : Int) : Int :=
  min w_ (max 1 (Int.fdiv (l_query * mat0 - q) r + 1)) + |rlen - l_query|

/-- Embedding of `bwa_gen_cigar` (bwamem.c:464-496), abstracted over the two
external collaborators: `getSeq rb re` models `bns_get_seq` (returning the
fetched slice and its actual length `rlen`), and `kswGlobal query rseq w`
models `ksw_global` (returning the score and the CIGAR operation list).
The result is the returned CIGAR (`none` for the C null pointer) and the
output parameter `*n_cigar`.  The in-place reversal of query and reference
for `rb >= l_pac` is modelled by `List.reverse` (the source restores the
query afterwards, which does not affect the result). -/
def bwa_gen_cigar (mat0 q r w_ : Int) (l_pac : Int) (l_query : Int)
    (query : List Nat) (rb re : Int)
    (getSeq : Int → Int → List Nat × Int)
    (kswGlobal : List Nat → List Nat → Int → Int × List (Nat × Nat)) :
    Option (List (Nat × Nat)) × Int :=
  if l_query ≤ 0 ∨ rb ≥ re ∨ (rb < l_pac ∧ re > l_pac) then (none, 0)
  else
    let fetched := getSeq rb re
    if re - rb ≠ fetched.2 then (none, 0)
    else
      let query' := if rb ≥ l_pac then query.reverse else query
      let rseq' := if rb ≥ l_pac then fetched.1.reverse else fetched.1
      let w := genCigarBand mat0 q r w_ l_query fetched.2
      let res := kswGlobal query' rseq' w
      (some res.2, (res.2.length : Int))

/-! ## Worker index sets (`worker1`/`worker2`, bwamem.c:671-700) -/

/-- Structural helper for `cLoopIdx`: the fuel bounds the iteration count and
never runs out when `step ≥ 1` and the fuel starts at `bound` (each iteration
advances `i` by at least 1, so at most `bound - i ≤ bound` iterations run). -/
def cLoopIdxAux : Nat → Nat → Nat → Nat → List Nat
  | 0, _, _, _ => []
  | fuel + 1, step, bound, i =>
    if i < bound then i :: cLoopIdxAux fuel step bound (i + step) else []

/-- The index set visited by the C loop `for (i = start; i < bound; i += step)`,
in visit order.  `step = 0` (impossible for the program: `step` is
`n_threads >= 1`) is mapped to the empty list to keep the function total. -/
def cLoopIdx (step bound i : Nat) : List Nat :=
  if step = 0 then [] else cLoopIdxAux bound step bound i

/-- Indices processed by `worker1` (bwamem.c:675): `for (i = w->start; i < w->n;
i += w->step)`. -/
def worker1Idxs (start step n : Nat) : List Nat := cLoopIdx step n start

/-- Indices processed by `worker2` in single-end mode (bwamem.c:686):
`for (i = 0; i < w->n; i += w->step)` — the loop starts at 0 and ignores
`w->start`. -/
def worker2IdxsSE (start step n : Nat) : List Nat := cLoopIdx step n 0

/-- Pair indices processed by `worker2` in paired-end mode (bwamem.c:693):
`for (i = 0; i < w->n>>1; i += w->step)` — likewise starting at 0. -/
def worker2IdxsPE (start step n : Nat) : List Nat := cLoopIdx step (n / 2) 0

/-- The index set the specification prescribes for the worker with start `k`
and step `n_threads` in either pass: `k, k+step, k+2*step, ...` below `n`. -/
def specWorkerIdxs (start step n : Nat) : List Nat := cLoopIdx step n start

/-! ## Approximate single-end MAPQ (`mem_approx_mapq_se`, bwamem.c:595-609) -/

/-- The effective suboptimal score of `mem_approx_mapq_se` (bwamem.c:597-599):
`a->sub` if non-zero else `min_seed_len * a`, then maximised with `a->csub`. -/
def mapqSubEff (opt : MemOpt) (a : MemAlnreg) : Int :=
  let sub := if a.sub ≠ 0 then a.sub else opt.min_seed_len * opt.a
  if a.csub > sub then a.csub else sub

/-- Embedding of `mem_approx_mapq_se` (bwamem.c:595-609).  The intermediate
value of `mapq` after lines 601-605 is computed with `double` logarithms; it
is modelled by the arbitrary integer parameter `raw` (the claims settled here
do not depend on it).  The early return on `sub >= a->score` and the final
clamping `if (mapq > 60) mapq = 60; if (mapq < 0) mapq = 0;` are exact. -/
def mem_approx_mapq_se (opt : MemOpt) (a : MemAlnreg) (raw : Int) : Int :=
  if mapqSubEff opt a ≥ a.score then 0
  else
    let mapq := raw
    let mapq := if mapq > 60 then 60 else mapq
    if mapq < 0 then 0 else mapq

/-! ## Concrete instances used by witnesses and counterexamples -/

/-- A two-seed chain whose query projection covers 20 positions but whose
reference projection covers only 15 (`[0,10) ∪ [5,15)`). -/
def chainW1 : MemChain := ⟨0, [⟨0, 0, 10⟩, ⟨10, 5, 10⟩]⟩

/-- A heavy single-seed chain (weight 100, query interval `[0,100)`). -/
def chainA : MemChain := ⟨0, [⟨0, 0, 100⟩]⟩

/-- A light single-seed chain (weight 40, query interval `[0,40)`), which
significantly overlaps `chainA` and is rejected by the drop test under the
default options. -/
def chainB : MemChain := ⟨1000, [⟨0, 1000, 40⟩]⟩

/-- Two seeds in non-decreasing `qbeg` order that merge into one chain. -/
def seedsW : List MemSeed := [⟨0, 0, 20⟩, ⟨10, 10, 20⟩]

/-- A region whose effective suboptimal score (`sub = 50`) exceeds its score
(`40`). -/
def regW : MemAlnreg := ⟨0, 100, 0, 50, 40, 50, 0, 0, 30, -1⟩

/-- Two regions on the same query interval with different scores; under
primary marking the second becomes secondary to the first. -/
def regsW : List MemAlnreg :=
  [⟨0, 100, 0, 50, 100, 0, 0, 0, 0, 5⟩, ⟨200, 300, 0, 50, 80, 0, 0, 0, 0, 7⟩]

/-! ## Helper lemmas -/

theorem ratioLeMul_iff (r : ℚ) (x y : ℤ) :
    y * r.num ≤ x * (r.den : ℤ) ↔ (y : ℚ) * r ≤ (x : ℚ) := by
  have hden : (0 : ℚ) < (r.den : ℚ) := by exact_mod_cast r.pos
  have hnum : (r.num : ℚ) = r * (r.den : ℚ) := (div_eq_iff hden.ne').mp (Rat.num_div_den r)
  rw [← Int.cast_le (R := ℚ)]
  push_cast
  rw [hnum, ← mul_assoc]
  exact mul_le_mul_right hden

theorem mulRatioLt_iff (r : ℚ) (x y : ℤ) :
    x * (r.den : ℤ) < y * r.num ↔ (x : ℚ) < (y : ℚ) * r := by
  have h := ratioLeMul_iff r x y
  constructor
  · intro hlt
    by_contra hc
    exact absurd (h.mpr (not_lt.mp hc)) (not_le.mpr hlt)
  · intro hlt
    by_contra hc
    exact absurd (h.mp (not_lt.mp hc)) (not_le.mpr hlt)

theorem getD_set_self {α : Type} (l : List α) (i : Nat) (b d : α) (h : i < l.length) :
    (l.set i b).getD i d = b := by
  induction l generalizing i with
  | nil => simp at h
  | cons x xs ih =>
    cases i with
    | zero => simp [List.set, List.getD]
    | succ n =>
      simp only [List.set, List.getD_cons_succ]
      exact ih n (by simpa using h)

theorem getD_set_ne {α : Type} (l : List α) {i j : Nat} (b d : α) (h : i ≠ j) :
    (l.set i b).getD j d = l.getD j d := by
  induction l generalizing i j with
  | nil => simp [List.set]
  | cons x xs ih =>
    cases i with
    | zero =>
      cases j with
      | zero => exact absurd rfl h
      | succ m => simp [List.set]
    | succ n =>
      cases j with
      | zero => simp [List.set]
      | succ m =>
        simp only [List.set, List.getD_cons_succ]
        exact ih (fun hh => h (by omega))

theorem getD_mem {α : Type} (l : List α) (i : Nat) (d : α) (h : i < l.length) :
    l.getD i d ∈ l := by
  rw [List.getD_eq_getElem l d h]
  exact List.getElem_mem h

/-! ## Claim C2 (band width in `bwa_gen_cigar`) -/

/-- C2: the claim states the band passed to the global-alignment kernel is
`min(w_opt, max(1, floor((l_query*match - q)/r) + 1)) + |rlen - l_query|`.
The source instead computes `w = w < 1 ? w : 1` (a MINIMUM with 1, where the
adjacent `cal_max_gap` takes the maximum for the same formula), so for
`match=1, q=6, r=1, w_opt=100, l_query=100, rlen=100` the code passes band 1
while the claimed formula gives 95. -/
theorem genCigarBand_min_clamp_bug :
    genCigarBand 1 6 1 100 100 100 = 1 ∧ specGenCigarBand 1 6 1 100 100 100 = 95 := by
  decide

/-! ## Claim C3 (worker partitioning) -/

/-- C3: `worker1` visits the round-robin set `{k, k+step, ...}`, but
`worker2`'s single-end loop starts at `i = 0` instead of `w->start`: with
`n = 4` reads and `n_threads = 2`, thread 1 processes `[0, 2]` in pass 2
(instead of the claimed `[1, 3]`), identical to thread 0's set — the pass-2
index sets of distinct workers are neither disjoint nor a cover. -/
theorem worker2_ignores_start :
    worker1Idxs 1 2 4 = [1, 3] ∧
    specWorkerIdxs 1 2 4 = [1, 3] ∧
    worker2IdxsSE 1 2 4 = [0, 2] ∧
    worker2IdxsSE 0 2 4 = [0, 2] := by
  decide

/-! ## Claim C7 (`bwa_gen_cigar` early rejection) -/

/-- C7: for a region whose window straddles the strand boundary
(`rb < l_pac < re`), or with `l_query ≤ 0`, or `rb ≥ re`, `bwa_gen_cigar`
returns the null CIGAR and sets `*n_cigar = 0`, for every choice of the
external collaborators. -/
theorem bwa_gen_cigar_rejects (mat0 q r w_ l_pac l_query : Int) (query : List Nat)
    (rb re : Int) (getSeq : Int → Int → List Nat × Int)
    (kswGlobal : List Nat → List Nat → Int → Int × List (Nat × Nat))
    (h : l_query ≤ 0 ∨ rb ≥ re ∨ (rb < l_pac ∧ l_pac < re)) :
    bwa_gen_cigar mat0 q r w_ l_pac l_query query rb re getSeq kswGlobal = (none, 0) := by
  unfold bwa_gen_cigar
  rw [if_pos h]

/-- Witness for C7 at `l_pac = 100`, `rb = 50 < l_pac < re = 150`. -/
theorem bwa_gen_cigar_rejects_witness :
    bwa_gen_cigar 1 6 1 100 100 10 [] 50 150 (fun _ _ => ([], 0)) (fun _ _ _ => (0, [])) =
      (none, 0) :=
  bwa_gen_cigar_rejects 1 6 1 100 100 10 [] 50 150 (fun _ _ => ([], 0)) (fun _ _ _ => (0, []))
    (Or.inr (Or.inr ⟨by decide, by decide⟩))

/-! ## Claim C9 (`mem_chain` on short queries) -/

/-- C9: a query shorter than `min_seed_len` yields an empty chain vector, and
the result does not depend on the seed stream (the function returns before
the FM-index iterator is created). -/
theorem mem_chain_short_query (opt : MemOpt) (len : Int) (seeds : List MemSeed)
    (h : len < opt.min_seed_len) :
    mem_chain opt len seeds = [] := by
  unfold mem_chain
  rw [if_pos h]

/-- Witness for C9: a length-5 query under the default options. -/
theorem mem_chain_short_query_witness :
    mem_chain mem_opt_init 5 seedsW = [] :=
  mem_chain_short_query mem_opt_init 5 seedsW (by decide)

/-! ## Claim C8 (`mem_approx_mapq_se`) -/

/-- C8: the returned MAPQ is 0 whenever the effective suboptimal score
reaches `a.score`, and in every case (for every value `raw` of the
floating-point middle section) the result lies in `[0, 60]`. -/
theorem mem_approx_mapq_se_spec (opt : MemOpt) (a : MemAlnreg) (raw : Int) :
    (mapqSubEff opt a ≥ a.score → mem_approx_mapq_se opt a raw = 0) ∧
    0 ≤ mem_approx_mapq_se opt a raw ∧ mem_approx_mapq_se opt a raw ≤ 60 := by
  refine ⟨fun h => ?_, ?_, ?_⟩
  · unfold mem_approx_mapq_se
    rw [if_pos h]
  · simp only [mem_approx_mapq_se]
    split_ifs <;> omega
  · simp only [mem_approx_mapq_se]
    split_ifs <;> omega

/-- Witness for C8: a region with `sub = 50 ≥ score = 40` maps to MAPQ 0. -/
theorem mem_approx_mapq_se_spec_witness :
    mapqSubEff mem_opt_init regW ≥ regW.score ∧
      mem_approx_mapq_se mem_opt_init regW 77 = 0 :=
  ⟨by decide, (mem_approx_mapq_se_spec mem_opt_init regW 77).1 (by decide)⟩

/-! ## Claim C5 (chain colinearity invariant) -/

theorem mem_of_getLast?_mem {α : Type} {l : List α} {x : α} (h : x ∈ l.getLast?) : x ∈ l := by
  obtain ⟨hne, rfl⟩ := List.mem_getLast?_eq_getLast h
  exact List.getLast_mem hne

/-- A successful `test_and_merge` preserves colinearity, provided the incoming
seed's `qbeg` is at least that of every seed in the chain; the result is
either the unchanged chain (contained seed) or the chain with the seed
appended. -/
theorem test_and_merge_colinear (opt : MemOpt) (c : MemChain) (p : MemSeed) (c' : MemChain)
    (hc : chainColinear opt.w c)
    (hq : ∀ t ∈ c.seeds, t.qbeg ≤ p.qbeg)
    (h : test_and_merge opt c p = some c') :
    chainColinear opt.w c' ∧ (c'.seeds = c.seeds ∨ c'.seeds = c.seeds ++ [p]) := by
  simp only [test_and_merge] at h
  split_ifs at h with h1 h2
  · cases h
    exact ⟨hc, Or.inl rfl⟩
  · cases h
    refine ⟨?_, Or.inr rfl⟩
    unfold chainColinear at hc ⊢
    simp only []
    rw [List.chain'_append]
    refine ⟨hc, List.chain'_singleton p, ?_⟩
    intro x hx y hy
    simp only [List.head?_cons, Option.mem_def, Option.some.injEq] at hy
    subst hy
    have hxmem : x ∈ c.seeds := mem_of_getLast?_mem hx
    have hxlast : c.seeds.getLastD dSeed = x := by
      rw [List.getLastD_eq_getLast?]
      rw [Option.mem_def] at hx
      rw [hx]
      rfl
    rw [hxlast] at h2
    obtain ⟨hy0, hxy, hyx, _, _⟩ := h2
    refine ⟨hq x hxmem, by omega, ?_⟩
    rw [abs_le]
    omega

/-- One insertion step preserves the chaining invariant. -/
theorem insertOneSeed_inv (opt : MemOpt) (s : MemSeed) (t : List MemSeed)
    (state : List MemChain)
    (hhead : ∀ f ∈ t, s.qbeg ≤ f.qbeg)
    (hs : chainInvState opt.w (s :: t) state) :
    chainInvState opt.w t (insertOneSeed opt state s) := by
  have hnewcase : chainInvState opt.w t (List.orderedInsert chainLe (newChain s) state) := by
    intro c hc
    rcases (List.mem_orderedInsert chainLe).mp hc with rfl | hc
    · refine ⟨List.chain'_singleton s, ?_⟩
      intro tt htt f hf
      simp only [newChain, List.mem_singleton] at htt
      subst htt
      exact hhead f hf
    · obtain ⟨h1, h2⟩ := hs c hc
      exact ⟨h1, fun tt htt f hf => h2 tt htt f (List.mem_cons_of_mem s hf)⟩
  cases hpi : predIdx state s.rbeg with
  | none =>
    have heq : insertOneSeed opt state s = List.orderedInsert chainLe (newChain s) state := by
      simp only [insertOneSeed, hpi]
    rw [heq]
    exact hnewcase
  | some i =>
    have hi : i < state.length := by
      unfold predIdx at hpi
      have hmem : i ∈ (List.range state.length).filter
          (fun i => decide ((state.getD i dChain).pos ≤ s.rbeg)) := mem_of_getLast?_mem hpi
      exact List.mem_range.mp (List.mem_filter.mp hmem).1
    have hci := hs (state.getD i dChain) (getD_mem state i dChain hi)
    cases htm : test_and_merge opt (state.getD i dChain) s with
    | none =>
      have heq : insertOneSeed opt state s = List.orderedInsert chainLe (newChain s) state := by
        simp only [insertOneSeed, hpi, htm]
      rw [heq]
      exact hnewcase
    | some c' =>
      have heq : insertOneSeed opt state s = state.set i c' := by
        simp only [insertOneSeed, hpi, htm]
      rw [heq]
      have hqle : ∀ tt ∈ (state.getD i dChain).seeds, tt.qbeg ≤ s.qbeg :=
        fun tt htt => hci.2 tt htt s (List.mem_cons_self s t)
      obtain ⟨hcol', hor⟩ := test_and_merge_colinear opt _ s c' hci.1 hqle htm
      intro c hc
      rcases List.mem_or_eq_of_mem_set hc with hc | rfl
      · obtain ⟨h1, h2⟩ := hs c hc
        exact ⟨h1, fun tt htt f hf => h2 tt htt f (List.mem_cons_of_mem s hf)⟩
      · refine ⟨hcol', ?_⟩
        intro tt htt f hf
        rcases hor with he | he
        · rw [he] at htt
          exact hci.2 tt htt f (List.mem_cons_of_mem s hf)
        · rw [he] at htt
          rcases List.mem_append.mp htt with h1 | h1
          · exact hci.2 tt h1 f (List.mem_cons_of_mem s hf)
          · simp only [List.mem_singleton] at h1
            subst h1
            exact hhead f hf

/-- The insertion loop preserves the chaining invariant along a
`qbeg`-sorted stream. -/
theorem insertSeeds_inv (opt : MemOpt) :
    ∀ (l : List MemSeed) (state : List MemChain),
      List.Pairwise seedQLe l →
      chainInvState opt.w l state →
      chainInvState opt.w [] (l.foldl (insertOneSeed opt) state) := by
  intro l
  induction l with
  | nil =>
    intro state _ hst
    intro c hc
    obtain ⟨h1, _⟩ := hst c hc
    exact ⟨h1, fun tt htt f hf => absurd hf (List.not_mem_nil f)⟩
  | cons s t ih =>
    intro state hpw hst
    rw [List.pairwise_cons] at hpw
    exact ih _ hpw.2 (insertOneSeed_inv opt s t state hpw.1 hst)

/-- C5: every chain produced by `mem_chain` from a seed stream that is
non-decreasing in `qbeg` (the order in which the SMEM iterator delivers
seeds; bwamem.c:151 relies on it) satisfies the chain invariant: seeds are
monotone non-decreasing in `qbeg` and `rbeg`, with consecutive diagonal
drift at most the band width `w`. -/
theorem mem_chain_colinear (opt : MemOpt) (len : Int) (seeds : List MemSeed)
    (hsorted : List.Pairwise seedQLe seeds) :
    ∀ c ∈ mem_chain opt len seeds, chainColinear opt.w c := by
  intro c hc
  unfold mem_chain at hc
  split_ifs at hc
  · exact absurd hc (List.not_mem_nil c)
  · have hinv := insertSeeds_inv opt seeds [] hsorted
      (fun c hc => absurd hc (List.not_mem_nil c))
    exact (hinv c hc).1

/-- Witness for C5: inserting `seedsW` (query length 100) produces the single
merged chain `⟨0, seedsW⟩`, which is colinear for the default band width. -/
theorem mem_chain_colinear_witness :
    chainColinear mem_opt_init.w ⟨0, seedsW⟩ :=
  mem_chain_colinear mem_opt_init 100 seedsW (by decide) ⟨0, seedsW⟩ (by decide)

/-! ## Claim C6 (`mem_sort_and_dedup`) -/

theorem keyLe_of_keyLt (x y : MemAlnreg) (h : keyLt x y) : keyLe x y := by
  unfold keyLe keyLt at *
  omega

theorem not_tripleEq_of_keyLt (x y : MemAlnreg) (h : keyLt x y) :
    ¬(x.score = y.score ∧ x.rb = y.rb ∧ x.qb = y.qb) := by
  unfold keyLt at h
  omega

theorem keyLt_of_keyLe_not_dup (x y : MemAlnreg) (hle : keyLe x y)
    (hne : ¬(y.score = x.score ∧ y.rb = x.rb ∧ y.qb = x.qb)) : keyLt x y := by
  unfold keyLe at hle
  unfold keyLt
  omega

theorem keyLt_of_keyLe_of_keyLt (x y z : MemAlnreg) (h1 : keyLe x y) (h2 : keyLt y z) :
    keyLt x z := by
  unfold keyLe at h1
  unfold keyLt at *
  omega

theorem keyLt_of_dup_of_keyLt (p y z : MemAlnreg)
    (hdup : y.score = p.score ∧ y.rb = p.rb ∧ y.qb = p.qb) (h : keyLt y z) : keyLt p z := by
  unfold keyLt at *
  omega

/-- Marking a duplicate (setting `qe := qb`) does not change its sort key. -/
theorem keyLe_mark_left (y z : MemAlnreg) (v : Int) :
    keyLe { y with qe := v } z ↔ keyLe y z := Iff.rfl

/-- Core lemma for C6: walking a `keyLe`-sorted list with the mark-and-compact
passes yields a strictly `keyLt`-sorted survivor list headed by the first
element. -/
theorem markDups_filter_pairwise :
    ∀ (xs : List MemAlnreg) (p : MemAlnreg),
      List.Sorted keyLe (p :: xs) →
      List.Pairwise keyLt (p :: (markDups p xs).filter (fun r => decide (r.qb < r.qe))) := by
  intro xs
  induction xs with
  | nil =>
    intro p _
    simp [markDups]
  | cons y t ih =>
    intro p hsort
    rw [List.sorted_cons] at hsort
    have hpy : keyLe p y := hsort.1 y (List.mem_cons_self y t)
    have hsyt : List.Sorted keyLe (y :: t) := hsort.2
    by_cases hdup : y.score = p.score ∧ y.rb = p.rb ∧ y.qb = p.qb
    · have hmd : markDups p (y :: t) =
          { y with qe := y.qb } :: markDups { y with qe := y.qb } t := by
        simp only [markDups]
        rw [if_pos hdup]
      have hsy't : List.Sorted keyLe ({ y with qe := y.qb } :: t) := by
        rw [List.sorted_cons] at hsyt ⊢
        exact ⟨fun z hz => (keyLe_mark_left y z y.qb).mpr (hsyt.1 z hz), hsyt.2⟩
      have hih := ih { y with qe := y.qb } hsy't
      rw [hmd, List.filter_cons]
      have hfalse : (decide (({ y with qe := y.qb }).qb < ({ y with qe := y.qb }).qe)) = false := by
        simp
      rw [hfalse]
      simp only [Bool.false_eq_true, if_false]
      rw [List.pairwise_cons] at hih ⊢
      refine ⟨?_, hih.2⟩
      intro z hz
      exact keyLt_of_dup_of_keyLt p { y with qe := y.qb } z hdup (hih.1 z hz)
    · have hmd : markDups p (y :: t) = y :: markDups y t := by
        simp only [markDups]
        rw [if_neg hdup]
      have hih := ih y hsyt
      rw [hmd, List.filter_cons]
      by_cases hkeep : y.qb < y.qe
      · rw [decide_eq_true hkeep]
        simp only [if_true]
        rw [List.pairwise_cons] at hih ⊢
        refine ⟨?_, ?_⟩
        · intro z hz
          rcases List.mem_cons.mp hz with rfl | hz
          · exact keyLt_of_keyLe_not_dup p z hpy hdup
          · exact keyLt_of_keyLe_of_keyLt p y z hpy (hih.1 z hz)
        · rw [List.pairwise_cons]
          exact ⟨hih.1, hih.2⟩
      · rw [decide_eq_false hkeep]
        simp only [Bool.false_eq_true, if_false]
        rw [List.pairwise_cons] at hih ⊢
        refine ⟨?_, hih.2⟩
        intro z hz
        exact keyLt_of_keyLe_of_keyLt p y z hpy (hih.1 z hz)

/-- C6: after `mem_sort_and_dedup`, no two surviving regions share the triple
`(score, rb, qb)`, and the survivors are sorted by score descending with ties
broken by `rb` then `qb` ascending. -/
theorem mem_sort_and_dedup_spec (l : List MemAlnreg) :
    List.Pairwise (fun x y => ¬(x.score = y.score ∧ x.rb = y.rb ∧ x.qb = y.qb))
      (mem_sort_and_dedup l) ∧
    List.Sorted keyLe (mem_sort_and_dedup l) := by
  by_cases hlen : l.length ≤ 1
  · have heq : mem_sort_and_dedup l = l := by
      simp only [mem_sort_and_dedup, if_pos hlen]
    rw [heq]
    rcases l with _ | ⟨x, _ | ⟨y, t⟩⟩
    · exact ⟨List.Pairwise.nil, List.Pairwise.nil⟩
    · exact ⟨List.pairwise_singleton _ x, List.pairwise_singleton _ x⟩
    · exfalso
      simp [List.length_cons] at hlen
  · cases hs : List.insertionSort keyLe l with
    | nil =>
      have : l.length = 0 := by
        have hp := List.perm_insertionSort keyLe l
        rw [hs] at hp
        simpa using hp.length_eq.symm
      omega
    | cons x xs =>
      have heq : mem_sort_and_dedup l =
          x :: (markDups x xs).filter (fun r => decide (r.qb < r.qe)) := by
        simp only [mem_sort_and_dedup, if_neg hlen, hs]
      have hsorted : List.Sorted keyLe (x :: xs) := hs ▸ List.sorted_insertionSort keyLe l
      have hpw := markDups_filter_pairwise xs x hsorted
      rw [heq]
      exact ⟨hpw.imp (fun h => not_tripleEq_of_keyLt _ _ h),
             hpw.imp (fun h => keyLe_of_keyLt _ _ h)⟩

/-! ## Claim C10 (`mem_mark_primary_se`) -/

theorem getD_map_lt {α β : Type} (f : α → β) (l : List α) (i : Nat) (d : β) (d' : α)
    (h : i < l.length) : (l.map f).getD i d = f (l.getD i d') := by
  induction l generalizing i with
  | nil => simp at h
  | cons x xs ih =>
    cases i with
    | zero => simp [List.getD]
    | succ n =>
      simp only [List.map_cons, List.getD_cons_succ]
      exact ih n (by simpa using h)

/-- Updating `sub`/`sub_n` of a dominating primary leaves its `secondary`
field untouched. -/
theorem mpUpdateAj_secondary (opt : MemOpt) (aj ai : MemAlnreg) :
    (mpUpdateAj opt aj ai).secondary = aj.secondary := by
  simp only [mpUpdateAj]
  split_ifs <;> rfl

/-- Invariant of the primary-marking fold: region list length is preserved;
stack members are in-range primaries (`secondary = -1`); the stack only
grows; and every region with `secondary ≥ 0` points to a stack member with a
strictly smaller index. -/
theorem markPrimary_fold_inv (opt : MemOpt) :
    ∀ (l : List Nat) (regs : List MemAlnreg) (z : List Nat),
      (∀ j ∈ z, j < regs.length ∧ (regs.getD j dReg).secondary = -1) →
      (∀ i ∈ l, i < regs.length) →
      (∀ j ∈ z, ∀ i ∈ l, j < i) →
      List.Pairwise (fun a b => a < b) l →
      (∀ i ∈ l, (regs.getD i dReg).secondary = -1) →
      (∀ m, m < regs.length → 0 ≤ (regs.getD m dReg).secondary →
        ((regs.getD m dReg).secondary.toNat ∈ z ∧ (regs.getD m dReg).secondary < (m : Int))) →
      ((l.foldl (markPrimaryStep opt) (regs, z)).1.length = regs.length ∧
       (∀ j ∈ (l.foldl (markPrimaryStep opt) (regs, z)).2,
          j < regs.length ∧
          ((l.foldl (markPrimaryStep opt) (regs, z)).1.getD j dReg).secondary = -1) ∧
       (∀ j ∈ z, j ∈ (l.foldl (markPrimaryStep opt) (regs, z)).2) ∧
       (∀ m, m < regs.length →
          0 ≤ ((l.foldl (markPrimaryStep opt) (regs, z)).1.getD m dReg).secondary →
          (((l.foldl (markPrimaryStep opt) (regs, z)).1.getD m dReg).secondary.toNat ∈
              (l.foldl (markPrimaryStep opt) (regs, z)).2 ∧
            ((l.foldl (markPrimaryStep opt) (regs, z)).1.getD m dReg).secondary < (m : Int)))) := by
  intro l
  induction l with
  | nil =>
    intro regs z hz _ _ _ _ hsec
    exact ⟨rfl, hz, fun j hj => hj, hsec⟩
  | cons i t ih =>
    intro regs z hz hl hzl hpw hstream hsec
    rw [List.pairwise_cons] at hpw
    have hilen : i < regs.length := hl i (List.mem_cons_self i t)
    simp only [List.foldl_cons]
    cases hf : z.find? (fun j => regSigOverlap opt.mask_level (regs.getD j dReg)
        (regs.getD i dReg)) with
    | some j =>
      have hjz : j ∈ z := List.mem_of_find?_eq_some hf
      have hji : j < i := hzl j hjz i (List.mem_cons_self i t)
      have hjlen : j < regs.length := (hz j hjz).1
      set regs' := (regs.set j (mpUpdateAj opt (regs.getD j dReg) (regs.getD i dReg))).set i
        { regs.getD i dReg with secondary := (j : Int) } with hregs'
      have heq : markPrimaryStep opt (regs, z) i = (regs', z) := by
        rw [hregs']
        simp only [markPrimaryStep, hf]
      rw [heq]
      have hlen' : regs'.length = regs.length := by
        rw [hregs']
        simp [List.length_set]
      have hgi : regs'.getD i dReg = { regs.getD i dReg with secondary := (j : Int) } := by
        rw [hregs']
        apply getD_set_self
        simpa [List.length_set] using hilen
      have hgother : ∀ m, m ≠ i → m ≠ j → regs'.getD m dReg = regs.getD m dReg := by
        intro m hmi hmj
        rw [hregs', getD_set_ne _ _ _ (fun hh => hmi hh.symm),
            getD_set_ne _ _ _ (fun hh => hmj hh.symm)]
      have hgj : regs'.getD j dReg = mpUpdateAj opt (regs.getD j dReg) (regs.getD i dReg) := by
        rw [hregs', getD_set_ne _ _ _ (fun hh => Nat.ne_of_lt hji hh.symm)]
        exact getD_set_self regs j _ dReg hjlen
      have happly := ih regs' z ?_ ?_ ?_ hpw.2 ?_ ?_
      · rw [hlen'] at happly
        exact happly
      · intro j' hj'
        rw [hlen']
        refine ⟨(hz j' hj').1, ?_⟩
        by_cases hjj : j' = j
        · subst hjj
          rw [hgj, mpUpdateAj_secondary]
          exact (hz j' hj').2
        · have hj'i : j' ≠ i := Nat.ne_of_lt (hzl j' hj' i (List.mem_cons_self i t))
          rw [hgother j' hj'i hjj]
          exact (hz j' hj').2
      · intro i' hi'
        rw [hlen']
        exact hl i' (List.mem_cons_of_mem i hi')
      · intro j' hj' i' hi'
        exact hzl j' hj' i' (List.mem_cons_of_mem i hi')
      · intro i' hi'
        have hii' : i < i' := hpw.1 i' hi'
        have h1 : i' ≠ i := fun hh => absurd (hh ▸ hii') (lt_irrefl i')
        have h2 : i' ≠ j := fun hh => absurd (hh ▸ hii') (by omega)
        rw [hgother i' h1 h2]
        exact hstream i' (List.mem_cons_of_mem i hi')
      · intro m hm
        rw [hlen'] at hm
        by_cases hmi : m = i
        · subst hmi
          rw [hgi]
          intro _
          constructor
          · simpa using hjz
          · simpa using hji
        · by_cases hmj : m = j
          · subst hmj
            rw [hgj, mpUpdateAj_secondary, (hz m hjz).2]
            intro habs
            omega
          · rw [hgother m hmi hmj]
            exact hsec m hm
    | none =>
      have heq : markPrimaryStep opt (regs, z) i = (regs, z ++ [i]) := by
        simp only [markPrimaryStep, hf]
      rw [heq]
      have happly := ih regs (z ++ [i]) ?_ ?_ ?_ hpw.2 ?_ ?_
      · refine ⟨happly.1, happly.2.1, ?_, happly.2.2.2⟩
        intro j hj
        exact happly.2.2.1 j (List.mem_append_left [i] hj)
      · intro j hj
        rcases List.mem_append.mp hj with hj | hj
        · exact hz j hj
        · simp only [List.mem_singleton] at hj
          subst hj
          exact ⟨hilen, hstream j (List.mem_cons_self j t)⟩
      · intro i' hi'
        exact hl i' (List.mem_cons_of_mem i hi')
      · intro j hj i' hi'
        rcases List.mem_append.mp hj with hj | hj
        · exact hzl j hj i' (List.mem_cons_of_mem i hi')
        · simp only [List.mem_singleton] at hj
          subst hj
          exact hpw.1 i' hi'
      · intro i' hi'
        exact hstream i' (List.mem_cons_of_mem i hi')
      · intro m hm hms
        obtain ⟨h1, h2⟩ := hsec m hm hms
        exact ⟨List.mem_append_left [i] h1, h2⟩

/-- C10: after `mem_mark_primary_se` on a non-empty region array, the first
region is primary (`secondary = -1`), and every region with `secondary ≥ 0`
points at an earlier region (index `secondary < i`) that is itself primary. -/
theorem mem_mark_primary_se_spec (opt : MemOpt) (regs : List MemAlnreg) (hne : regs ≠ []) :
    ((mem_mark_primary_se opt regs).getD 0 dReg).secondary = -1 ∧
    ∀ i, i < (mem_mark_primary_se opt regs).length →
      0 ≤ ((mem_mark_primary_se opt regs).getD i dReg).secondary →
      (((mem_mark_primary_se opt regs).getD i dReg).secondary.toNat < i ∧
       ((mem_mark_primary_se opt regs).getD
          (((mem_mark_primary_se opt regs).getD i dReg).secondary.toNat) dReg).secondary = -1) := by
  have hlen0 : ¬ regs.length = 0 := by
    intro h
    exact hne (List.length_eq_zero.mp h)
  set init := regs.map (fun r => { r with sub := 0, secondary := -1 }) with hinit
  have heq : mem_mark_primary_se opt regs =
      ((List.range' 1 (regs.length - 1)).foldl (markPrimaryStep opt) (init, [0])).1 := by
    rw [hinit]
    simp only [mem_mark_primary_se, if_neg hlen0]
  have hinitlen : init.length = regs.length := by
    rw [hinit, List.length_map]
  have hinitsec : ∀ m, m < init.length → (init.getD m dReg).secondary = -1 := by
    intro m hm
    rw [hinitlen] at hm
    rw [hinit, getD_map_lt _ regs m dReg dReg hm]
  have hfold := markPrimary_fold_inv opt (List.range' 1 (regs.length - 1)) init [0]
      ?_ ?_ ?_ ?_ ?_ ?_
  · obtain ⟨hL, hZ, hZsub, hS⟩ := hfold
    rw [heq]
    constructor
    · exact (hZ 0 (hZsub 0 (List.mem_singleton.mpr rfl))).2
    · intro i hi hpos
      rw [hL, hinitlen] at hi
      have hSi := hS i (by rw [hinitlen]; exact hi) hpos
      obtain ⟨hmem, hlt⟩ := hSi
      refine ⟨by omega, ?_⟩
      exact (hZ _ hmem).2
  · intro j hj
    simp only [List.mem_singleton] at hj
    subst hj
    have h0 : 0 < init.length := by
      rw [hinitlen]
      omega
    exact ⟨h0, hinitsec 0 h0⟩
  · intro i hi
    rw [List.mem_range'_1] at hi
    rw [hinitlen]
    omega
  · intro j hj i hi
    simp only [List.mem_singleton] at hj
    subst hj
    rw [List.mem_range'_1] at hi
    omega
  · exact List.pairwise_lt_range' 1 (regs.length - 1)
  · intro i hi
    rw [List.mem_range'_1] at hi
    exact hinitsec i (by rw [hinitlen]; omega)
  · intro m hm hpos
    rw [hinitsec m hm] at hpos
    exact absurd hpos (by omega)

/-- Witness for C10: marking the two-region list `regsW` leaves region 0
primary. -/
theorem mem_mark_primary_se_spec_witness :
    ((mem_mark_primary_se mem_opt_init regsW).getD 0 dReg).secondary = -1 :=
  (mem_mark_primary_se_spec mem_opt_init regsW (by decide)).1

/-! ## Claim C1 (chain weight in `mem_chain_flt`) -/

theorem covSet_cons (f : MemSeed → Int) (s : MemSeed) (t : List MemSeed) :
    covSet f (s :: t) = Finset.Ico (f s) (f s + s.len) ∪ covSet f t := rfl

/-- C1 counterexample: for the two-seed chain `chainW1` the source assigns
weight 20 (the query-axis coverage: the second loop adds on top of the first
loop's accumulator without resetting it, so the final `min` always picks the
query coverage), while the claimed `min(w_q, w_r)` is 15 (its reference
intervals `[0,10) ∪ [5,15)` cover only 15 positions). -/
theorem chain_weight_not_min_coverage :
    chain_weight chainW1 = 20 ∧ specChainWeight chainW1 = 15 := by
  decide

/-- The second coverage loop only ever adds a non-negative amount, so its
result is at least its starting accumulator. -/
theorem covR_fold_mono : ∀ (l : List MemSeed) (w e : Int),
    (∀ s ∈ l, 0 ≤ s.len) → w ≤ (l.foldl covStepR (w, e)).1 := by
  intro l
  induction l with
  | nil =>
    intro w e _
    simp
  | cons s t ih =>
    intro w e hlen
    simp only [List.foldl_cons]
    have hs : 0 ≤ s.len := hlen s (List.mem_cons_self s t)
    have step1 : w ≤ (covStepR (w, e) s).1 := by
      simp only [covStepR]
      split_ifs <;> omega
    have h2 := ih (covStepR (w, e) s).1 (covStepR (w, e) s).2
      (fun s' hs' => hlen s' (List.mem_cons_of_mem s hs'))
    rw [Prod.mk.eta] at h2
    exact le_trans step1 h2

/-- Sweep-line lemma for the first coverage loop: starting from an
accumulator counting a set `U` that lies strictly below the running endpoint
`e`, with every upcoming seed's interval covered by `U` up to `e`, the loop
computes the cardinality of `U` joined with the query intervals of the
remaining (qbeg-sorted, non-negative-length) seeds. -/
theorem covQ_sweep : ∀ (l : List MemSeed) (w e : Int) (U : Finset ℤ),
    w = (U.card : Int) →
    (∀ x ∈ U, x < e) →
    (∀ s ∈ l, 0 ≤ s.len) →
    (∀ s ∈ l, Finset.Ico s.qbeg e ⊆ U) →
    List.Pairwise seedQLe l →
    (l.foldl covStepQ (w, e)).1 = ((U ∪ covSet MemSeed.qbeg l).card : Int) := by
  intro l
  induction l with
  | nil =>
    intro w e U hw _ _ _ _
    simpa [covSet] using hw
  | cons s t ih =>
    intro w e U hw hUe hlen hcov hpw
    rw [List.pairwise_cons] at hpw
    have hslen : 0 ≤ s.len := hlen s (List.mem_cons_self s t)
    simp only [List.foldl_cons]
    by_cases h1 : s.qbeg ≥ e
    · have hstep : covStepQ (w, e) s = (w + s.len, max e (s.qbeg + s.len)) := by
        simp only [covStepQ]
        rw [if_pos h1]
      rw [hstep]
      have hdisj : Disjoint U (Finset.Ico s.qbeg (s.qbeg + s.len)) := by
        rw [Finset.disjoint_left]
        intro x hxU hxI
        rw [Finset.mem_Ico] at hxI
        have := hUe x hxU
        omega
      have hrec := ih (w + s.len) (max e (s.qbeg + s.len))
          (U ∪ Finset.Ico s.qbeg (s.qbeg + s.len)) ?_ ?_
          (fun s' hs' => hlen s' (List.mem_cons_of_mem s hs')) ?_ hpw.2
      · rw [hrec, covSet_cons, ← Finset.union_assoc]
      · rw [Finset.card_union_of_disjoint hdisj, Int.card_Ico]
        push_cast
        omega
      · intro x hx
        rcases Finset.mem_union.mp hx with hx | hx
        · exact lt_of_lt_of_le (hUe x hx) (le_max_left _ _)
        · rw [Finset.mem_Ico] at hx
          exact lt_of_lt_of_le hx.2 (le_max_right _ _)
      · intro s' hs' x hx
        rw [Finset.mem_Ico] at hx
        have hq' : s.qbeg ≤ s'.qbeg := hpw.1 s' hs'
        by_cases hxe : x < e
        · exact Finset.mem_union_left _ (hcov s' (List.mem_cons_of_mem s hs')
            (Finset.mem_Ico.mpr ⟨hx.1, hxe⟩))
        · rcases lt_max_iff.mp hx.2 with hx2 | hx2
          · exact absurd hx2 hxe
          · exact Finset.mem_union_right _ (Finset.mem_Ico.mpr ⟨by omega, hx2⟩)
    · by_cases h2 : s.qbeg + s.len > e
      · have hstep : covStepQ (w, e) s =
            (w + (s.qbeg + s.len - e), max e (s.qbeg + s.len)) := by
          simp only [covStepQ]
          rw [if_neg h1, if_pos h2]
        rw [hstep]
        have hse : Finset.Ico s.qbeg e ⊆ U := hcov s (List.mem_cons_self s t)
        have hdisj : Disjoint U (Finset.Ico e (s.qbeg + s.len)) := by
          rw [Finset.disjoint_left]
          intro x hxU hxI
          rw [Finset.mem_Ico] at hxI
          have := hUe x hxU
          omega
        have hrec := ih (w + (s.qbeg + s.len - e)) (max e (s.qbeg + s.len))
            (U ∪ Finset.Ico e (s.qbeg + s.len)) ?_ ?_
            (fun s' hs' => hlen s' (List.mem_cons_of_mem s hs')) ?_ hpw.2
        · rw [hrec]
          have hkey : U ∪ Finset.Ico e (s.qbeg + s.len) =
              U ∪ Finset.Ico s.qbeg (s.qbeg + s.len) := by
            ext x
            simp only [Finset.mem_union, Finset.mem_Ico]
            constructor
            · rintro (hx | ⟨hx1, hx2⟩)
              · exact Or.inl hx
              · exact Or.inr ⟨by omega, hx2⟩
            · rintro (hx | ⟨hx1, hx2⟩)
              · exact Or.inl hx
              · by_cases hxe : x < e
                · exact Or.inl (hse (Finset.mem_Ico.mpr ⟨hx1, hxe⟩))
                · exact Or.inr ⟨by omega, hx2⟩
          rw [hkey, covSet_cons, ← Finset.union_assoc]
        · rw [Finset.card_union_of_disjoint hdisj, Int.card_Ico]
          push_cast
          omega
        · intro x hx
          rcases Finset.mem_union.mp hx with hx | hx
          · exact lt_of_lt_of_le (hUe x hx) (le_max_left _ _)
          · rw [Finset.mem_Ico] at hx
            exact lt_of_lt_of_le hx.2 (le_max_right _ _)
        · intro s' hs' x hx
          rw [Finset.mem_Ico] at hx
          by_cases hxe : x < e
          · exact Finset.mem_union_left _ (hcov s' (List.mem_cons_of_mem s hs')
              (Finset.mem_Ico.mpr ⟨hx.1, hxe⟩))
          · rcases lt_max_iff.mp hx.2 with hx2 | hx2
            · exact absurd hx2 hxe
            · exact Finset.mem_union_right _ (Finset.mem_Ico.mpr ⟨by omega, hx2⟩)
      · have hstep : covStepQ (w, e) s = (w, max e (s.qbeg + s.len)) := by
          simp only [covStepQ]
          rw [if_neg h1, if_neg h2]
        rw [hstep]
        have hmax : max e (s.qbeg + s.len) = e := max_eq_left (by omega)
        rw [hmax]
        have hII : Finset.Ico s.qbeg (s.qbeg + s.len) ⊆ U := by
          intro x hx
          rw [Finset.mem_Ico] at hx
          exact hcov s (List.mem_cons_self s t) (Finset.mem_Ico.mpr ⟨hx.1, by omega⟩)
        have hrec := ih w e U hw hUe
          (fun s' hs' => hlen s' (List.mem_cons_of_mem s hs'))
          (fun s' hs' => hcov s' (List.mem_cons_of_mem s hs')) hpw.2
        rw [hrec, covSet_cons, ← Finset.union_assoc,
          Finset.union_eq_left.mpr hII]

/-- C1 amended: for every chain whose seeds are in non-decreasing `qbeg`
order with non-negative lengths and query starts (all guaranteed for chains
built by the chainer), the weight `mem_chain_flt` assigns equals the
query-axis interval-union coverage `w_q` alone: the reference-axis pass (its
`end` updated with `qbeg` and its accumulator never reset) can only add to
the total, so the final `min` always returns `w_q`. -/
theorem chain_weight_eq_query_coverage (c : MemChain)
    (hsort : List.Pairwise seedQLe c.seeds)
    (hlen : ∀ s ∈ c.seeds, 0 ≤ s.len)
    (hq : ∀ s ∈ c.seeds, 0 ≤ s.qbeg) :
    chain_weight c = ((covSet MemSeed.qbeg c.seeds).card : Int) := by
  have hq1 := covQ_sweep c.seeds 0 0 ∅ (by simp) (by simp) hlen ?_ hsort
  · have hq1' : (c.seeds.foldl covStepQ (0, 0)).1 =
        ((covSet MemSeed.qbeg c.seeds).card : Int) := by
      rw [hq1, Finset.empty_union]
    simp only [chain_weight]
    rw [hq1']
    exact min_eq_right (covR_fold_mono c.seeds _ 0 hlen)
  · intro s hs x hx
    rw [Finset.mem_Ico] at hx
    have := hq s hs
    exact absurd hx.2 (by omega)

/-- Witness for C1 (amended): on `chainW1` the assigned weight equals the
query coverage (20). -/
theorem chain_weight_eq_query_coverage_witness :
    chain_weight chainW1 = ((covSet MemSeed.qbeg chainW1.seeds).card : Int) :=
  chain_weight_eq_query_coverage chainW1 (by decide) (by decide) (by decide)

/-! ## Claim C4 (`mem_chain_flt` returns accepted chains) -/

/-- C4 counterexample: with the default options and chains `[chainA, chainB]`
(weights 100 and 40), `chainB` is rejected by the drop test — the accepted
list holds only chain index 0 — yet the function returns BOTH chains: before
rejecting `chainB` the scan records it as `chainA`'s `p2` partner
(bwamem.c:296), and the marking loop keeps every `p2` chain (bwamem.c:307-308),
so a rejected chain survives with its seed buffer intact. -/
theorem mem_chain_flt_keeps_rejected :
    acceptedIdxs mem_opt_init [chainA, chainB] = [0] ∧
    mem_chain_flt mem_opt_init [chainA, chainB] = [chainA, chainB] := by
  decide

/-- The scan over the accepted list preserves index bounds: every surviving
entry has `p < m`, and any `p2` it records is a candidate index `< m`. -/
theorem scanAcc_bounds (opt : MemOpt) (m : Nat) (cand : FltAux) (hc : cand.p < m) :
    ∀ (acc : List FltAux),
      (∀ a ∈ acc, a.p < m ∧ ∀ j, a.p2 = some j → j < m) →
      ∀ a ∈ (scanAcc opt cand acc).1, a.p < m ∧ ∀ j, a.p2 = some j → j < m := by
  intro acc
  induction acc with
  | nil =>
    intro _ a ha
    simp [scanAcc] at ha
  | cons b rest ih =>
    intro hacc a ha
    have hb := hacc b (List.mem_cons_self b rest)
    have hrest := fun x hx => hacc x (List.mem_cons_of_mem b hx)
    simp only [scanAcc] at ha
    split_ifs at ha <;>
      (rcases List.mem_cons.mp ha with rfl | ha
       · first
         | exact hb
         | exact ⟨hb.1, fun j hj => by
             simp only [Option.some.injEq] at hj
             omega⟩
       · first
         | exact hrest a ha
         | exact ih hrest a ha)

/-- The acceptance fold preserves index bounds, provided all candidates carry
in-range `p` and unset `p2`. -/
theorem acceptFold_bounds (opt : MemOpt) (m : Nat) :
    ∀ (cands : List FltAux) (acc : List FltAux),
      (∀ a ∈ cands, a.p < m ∧ a.p2 = none) →
      (∀ a ∈ acc, a.p < m ∧ ∀ j, a.p2 = some j → j < m) →
      ∀ a ∈ cands.foldl (acceptStep opt) acc, a.p < m ∧ ∀ j, a.p2 = some j → j < m := by
  intro cands
  induction cands with
  | nil =>
    intro acc _ hacc a ha
    exact hacc a ha
  | cons cand t ih =>
    intro acc hcands hacc
    simp only [List.foldl_cons]
    have hcand := hcands cand (List.mem_cons_self cand t)
    apply ih
    · intro a ha
      exact hcands a (List.mem_cons_of_mem cand ha)
    · intro a ha
      simp only [acceptStep] at ha
      split_ifs at ha
      · exact scanAcc_bounds opt m cand hcand.1 acc hacc a ha
      · rcases List.mem_append.mp ha with ha | ha
        · exact scanAcc_bounds opt m cand hcand.1 acc hacc a ha
        · simp only [List.mem_singleton] at ha
          subst ha
          exact ⟨hcand.1, fun j hj => by
            rw [hcand.2] at hj
            cases hj⟩

/-- Bounds for the full acceptance loop. -/
theorem acceptLoop_bounds (opt : MemOpt) (m : Nat) (auxs : List FltAux)
    (h : ∀ a ∈ auxs, a.p < m ∧ a.p2 = none) :
    ∀ a ∈ acceptLoop opt auxs, a.p < m ∧ ∀ j, a.p2 = some j → j < m := by
  cases auxs with
  | nil =>
    intro a ha
    simp [acceptLoop] at ha
  | cons a0 rest =>
    have h0 := h a0 (List.mem_cons_self a0 rest)
    exact acceptFold_bounds opt m rest [a0]
      (fun a ha => h a (List.mem_cons_of_mem a0 ha))
      (fun a ha => by
        simp only [List.mem_singleton] at ha
        subst ha
        exact ⟨h0.1, fun j hj => by
          rw [h0.2] at hj
          cases hj⟩)

theorem getD_setTrue (ks : List Bool) (p i : Nat) (hp : p < ks.length) :
    (ks.set p true).getD i false = (ks.getD i false || (p == i)) := by
  by_cases hip : p = i
  · subst hip
    rw [getD_set_self ks p true false hp]
    simp
  · rw [getD_set_ne ks true false hip, beq_eq_false_iff_ne.mpr hip, Bool.or_false]

theorem getD_replicate_false (m i : Nat) : (List.replicate m false).getD i false = false := by
  rw [List.getD_eq_getElem?_getD, List.getElem?_replicate]
  split_ifs <;> rfl

/-- One marking step sets exactly the flags of `a.p` and (when present)
`a.p2`, given non-empty chains and in-range indices. -/
theorem markStep_getD (sorted : List MemChain) (hne : ∀ c ∈ sorted, c.seeds ≠ [])
    (ks : List Bool) (hkl : ks.length = sorted.length)
    (a : FltAux) (hap : a.p < sorted.length)
    (hap2 : ∀ j, a.p2 = some j → j < sorted.length) (i : Nat) :
    (markStep sorted ks a).getD i false =
      (ks.getD i false || (a.p == i || a.p2 == some i)) := by
  have hpne : (sorted.getD a.p dChain).seeds ≠ [] :=
    hne _ (getD_mem sorted a.p dChain hap)
  cases hp2 : a.p2 with
  | none =>
    have heq : markStep sorted ks a = ks.set a.p true := by
      simp only [markStep, hp2, if_pos hpne]
    rw [heq, getD_setTrue ks a.p i (by omega)]
    rw [show ((none : Option Nat) == some i) = false from rfl, Bool.or_false]
  | some j =>
    have hjlen : j < sorted.length := hap2 j hp2
    have hjne : (sorted.getD j dChain).seeds ≠ [] :=
      hne _ (getD_mem sorted j dChain hjlen)
    have heq : markStep sorted ks a = (ks.set a.p true).set j true := by
      simp only [markStep, hp2, if_pos hpne, if_pos hjne]
    rw [heq]
    rw [getD_setTrue (ks.set a.p true) j i (by rw [List.length_set]; omega)]
    rw [getD_setTrue ks a.p i (by omega)]
    rw [show ((some j : Option Nat) == some i) = (j == i) from rfl]
    rw [Bool.or_assoc]

/-- The whole marking fold computes precisely the membership flags of the
kept-index set of the accepted list. -/
theorem markFold_getD (sorted : List MemChain) (hne : ∀ c ∈ sorted, c.seeds ≠ []) :
    ∀ (acc : List FltAux) (ks : List Bool),
      ks.length = sorted.length →
      (∀ a ∈ acc, a.p < sorted.length ∧ ∀ j, a.p2 = some j → j < sorted.length) →
      ∀ i, i < sorted.length →
        (acc.foldl (markStep sorted) ks).getD i false = (ks.getD i false || keptB acc i) := by
  intro acc
  induction acc with
  | nil =>
    intro ks _ _ i _
    simp [keptB]
  | cons a t ih =>
    intro ks hkl hacc i hi
    have hpa := hacc a (List.mem_cons_self a t)
    have hlen1 : (markStep sorted ks a).length = sorted.length := by
      cases hp2 : a.p2 with
      | none =>
        simp only [markStep, hp2]
        split_ifs <;> simp [List.length_set, hkl]
      | some j =>
        simp only [markStep, hp2]
        split_ifs <;> simp [List.length_set, hkl]
    simp only [List.foldl_cons]
    rw [ih (markStep sorted ks a) hlen1 (fun b hb => hacc b (List.mem_cons_of_mem a hb)) i hi]
    rw [markStep_getD sorted hne ks hkl a hpa.1 hpa.2 i]
    simp only [keptB, List.any_cons, Bool.or_assoc]

/-- C4 amended: `mem_chain_flt` returns, in weight-sorted order, exactly the
chains whose index is accepted OR recorded as the `p2` (first significant-
overlap partner) of an accepted chain; all other chains are freed and
dropped.  (The original claim — accepted chains only — fails; see the
counterexample.)  The hypothesis that chains hold at least one seed is
guaranteed for chains built by `mem_chain`. -/
theorem mem_chain_flt_eq_kept (opt : MemOpt) (cs : List MemChain)
    (hne : ∀ c ∈ cs, c.seeds ≠ []) :
    mem_chain_flt opt cs = chainFltKept opt cs := by
  have hnes : ∀ c ∈ sortChainsByW cs, c.seeds ≠ [] := fun c hc =>
    hne c ((List.perm_insertionSort fltWGe cs).subset hc)
  by_cases hlen : cs.length ≤ 1
  · rcases cs with _ | ⟨c, _ | ⟨d, t⟩⟩
    · rfl
    · rfl
    · exfalso
      simp [List.length_cons] at hlen
  · have hauxs : ∀ a ∈ ((sortChainsByW cs).enum.map fun ic => mkAux ic.1 ic.2),
        a.p < (sortChainsByW cs).length ∧ a.p2 = none := by
      intro a ha
      rcases List.mem_map.mp ha with ⟨⟨i, c⟩, hmem, rfl⟩
      have hend := List.mem_enumFrom
        (show (i, c) ∈ List.enumFrom 0 (sortChainsByW cs) from hmem)
      exact ⟨by simpa using hend.2.1, rfl⟩
    have haccb := acceptLoop_bounds opt (sortChainsByW cs).length _ hauxs
    simp only [mem_chain_flt, chainFltKept, if_neg hlen, markFlags]
    congr 1
    apply List.filter_congr
    intro ic hic
    have hi : ic.1 < (sortChainsByW cs).length := by
      obtain ⟨i, c⟩ := ic
      have hend := List.mem_enumFrom
        (show (i, c) ∈ List.enumFrom 0 (sortChainsByW cs) from hic)
      simpa using hend.2.1
    rw [markFold_getD (sortChainsByW cs) hnes _ (List.replicate (sortChainsByW cs).length false)
        (List.length_replicate _ _) haccb ic.1 hi]
    rw [getD_replicate_false, Bool.false_or]

/-- Witness for C4 (amended) at the concrete two-chain input. -/
theorem mem_chain_flt_eq_kept_witness :
    mem_chain_flt mem_opt_init [chainA, chainB] =
      chainFltKept mem_opt_init [chainA, chainB] :=
  mem_chain_flt_eq_kept mem_opt_init [chainA, chainB] (by decide)
